import Mathlib

/-!
Shallow embedding of pdf2docx `common/Collection.py` (class `Collection`).

The file `Collection.py` is the authority for all behaviour of the class
itself.  Its collaborators (`BBox`, `Block`, `base.TextDirection`,
`fitz.Rect`) are not part of the sources, so their small surface is
modelled from the spec, as documented on each definition.  Python `float`
coordinates are modelled as integers: none of the verified properties
depends on rounding, only on comparisons and min/max.
-/

/-- Modelled from the spec: the `TextDirection` enumeration of `common/base.py`
(not under src/), with the values the spec names: `LeftRight` (normal),
`BottomTop` (rotated), `Ignore` (mixed/unknown). -/
inductive TextDirection where
  | LEFT_RIGHT : TextDirection
  | BOTTOM_TOP : TextDirection
  | IGNORE : TextDirection
deriving DecidableEq, Repr

/-- Modelled from the spec: the geometric primitive (`fitz.Rect` behind
`BBox.bbox`, not under src/): an axis-aligned rectangle with four numeric
bounds, y increasing downward. -/
structure Rect where
  x0 : Int
  y0 : Int
  x1 : Int
  y1 : Int
deriving DecidableEq, Repr

/-- Modelled from the spec: the parent aggregator operation `union(rectangle)`
(`Block.union`, not under src/): enlarge the aggregate bounds to the smallest
rectangle enclosing both; monotonic, never shrinks. -/
def Rect.union (a b : Rect) : Rect :=
  ⟨min a.x0 b.x0, min a.y0 b.y0, max a.x1 b.x1, max a.y1 b.y1⟩

/-- Enclosure of rectangles: `a.contains b` means `b` lies inside `a`. -/
def Rect.contains (a b : Rect) : Prop :=
  a.x0 ≤ b.x0 ∧ a.y0 ≤ b.y0 ∧ b.x1 ≤ a.x1 ∧ b.y1 ≤ a.y1

instance (a b : Rect) : Decidable (a.contains b) := by
  unfold Rect.contains
  infer_instance

/-- Modelled from the spec: a boxed element (`BBox` instance, not under src/).
It exposes a bounding rectangle, optionally a `text_direction` attribute
(`dir = none` models an element lacking the attribute), and a boolean
conversion (`truthy`, the value of Python `bool(element)` used by
`if not bbox`). -/
structure BoxedElement where
  bbox : Rect
  dir : Option TextDirection
  truthy : Bool
deriving DecidableEq, Repr

instance : Inhabited BoxedElement := ⟨⟨⟨0, 0, 0, 0⟩, none, false⟩⟩

/-- State of a `Collection`: the `_instances` list and the `_parent`
back-reference, modelled by the parent aggregate rectangle when present.
`unionLog` and `inserted` are observation-only ghost fields: `unionLog`
records the argument of every `union` call made on the parent, `inserted`
records every element ever successfully added by `append`/`insert`; neither
influences any behaviour. -/
structure Collection where
  instances : List BoxedElement
  parent : Option Rect
  unionLog : List Rect
  inserted : List BoxedElement
deriving DecidableEq, Repr

/-- Embeds `Collection.text_direction`: default `LEFT_RIGHT` for an empty
list or when the first instance lacks the attribute (`hasattr` probe);
otherwise the set of all instance directions is collected (`.error ()`
models the `AttributeError` raised when a later instance lacks the
attribute), returning the unique member of the set if it is a singleton and
`IGNORE` otherwise. -/
def textDirectionOf : List BoxedElement → Except Unit TextDirection
  | [] => .ok .LEFT_RIGHT
  | e :: rest =>
    if e.dir.isSome then
      if (e :: rest).all (fun x => x.dir.isSome) then
        match ((e :: rest).filterMap (fun x => x.dir)).dedup with
        | [d] => .ok d
        | _ => .ok .IGNORE
      else .error ()
    else .ok .LEFT_RIGHT

def Collection.text_direction (c : Collection) : Except Unit TextDirection :=
  textDirectionOf c.instances

/-- Sort key of `sort_in_reading_order` in the `BOTTOM_TOP` branch:
`(x0, y1, y0)`. -/
def readingKeyBT (e : BoxedElement) : Int × Int × Int := (e.bbox.x0, e.bbox.y1, e.bbox.y0)

/-- Sort key of `sort_in_reading_order` in the default branch: `(y0, x0, x1)`. -/
def readingKeyLR (e : BoxedElement) : Int × Int × Int := (e.bbox.y0, e.bbox.x0, e.bbox.x1)

/-- Sort key of `sort_in_line_order` in the `BOTTOM_TOP` branch: `(y1, x0, y0)`. -/
def lineKeyBT (e : BoxedElement) : Int × Int × Int := (e.bbox.y1, e.bbox.x0, e.bbox.y0)

/-- Sort key of `sort_in_line_order` in the default branch: `(x0, y0, x1)`. -/
def lineKeyLR (e : BoxedElement) : Int × Int × Int := (e.bbox.x0, e.bbox.y0, e.bbox.x1)

/-- Lexicographic comparison of Python key tuples, as `list.sort(key=...)`
compares them. -/
def tupleLe (a b : Int × Int × Int) : Bool :=
  decide (a.1 < b.1) ||
    (decide (a.1 = b.1) &&
      (decide (a.2.1 < b.2.1) || (decide (a.2.1 = b.2.1) && decide (a.2.2 ≤ b.2.2))))

/-- Element comparison induced by a key function. -/
def keyLe (k : BoxedElement → Int × Int × Int) (a b : BoxedElement) : Bool :=
  tupleLe (k a) (k b)

/-- Embeds `Collection.sort_in_reading_order` at list level: stable sort by
key `(x0, y1, y0)` when the resolved direction is `BOTTOM_TOP`, by
`(y0, x0, x1)` otherwise.  When resolving the direction raises
(heterogeneous attribute exposure), the exception propagates before the
sort runs, so the list is returned unchanged. -/
def sortInReadingOrder (l : List BoxedElement) : List BoxedElement :=
  match textDirectionOf l with
  | .error _ => l
  | .ok d =>
    if d = .BOTTOM_TOP then l.mergeSort (keyLe readingKeyBT)
    else l.mergeSort (keyLe readingKeyLR)

/-- Embeds `Collection.sort_in_line_order` at list level: stable sort by key
`(y1, x0, y0)` when the resolved direction is `BOTTOM_TOP`, by `(x0, y0, x1)`
otherwise. -/
def sortInLineOrder (l : List BoxedElement) : List BoxedElement :=
  match textDirectionOf l with
  | .error _ => l
  | .ok d =>
    if d = .BOTTOM_TOP then l.mergeSort (keyLe lineKeyBT)
    else l.mergeSort (keyLe lineKeyLR)

def Collection.sort_in_reading_order (c : Collection) : Collection :=
  { c with instances := sortInReadingOrder c.instances }

def Collection.sort_in_line_order (c : Collection) : Collection :=
  { c with instances := sortInLineOrder c.instances }

/-- Embeds `Collection.append`: no-op on a falsy element, otherwise the
element goes to the end of `_instances` and, when a parent is attached, the
parent aggregate is unioned with the element bbox (logged in the ghost
fields). -/
def Collection.append (c : Collection) (bbox : BoxedElement) : Collection :=
  if !bbox.truthy then c
  else
    match c.parent with
    | none =>
        { c with instances := c.instances ++ [bbox], inserted := c.inserted ++ [bbox] }
    | some p =>
        { c with
          instances := c.instances ++ [bbox],
          inserted := c.inserted ++ [bbox],
          parent := some (p.union bbox.bbox),
          unionLog := c.unionLog ++ [bbox.bbox] }

/-- Insertion into a list at a clamped non-negative position (the tail case
`[a]` is unreachable for clamped positions). -/
def listInsertAt : ℕ → BoxedElement → List BoxedElement → List BoxedElement
  | 0, a, l => a :: l
  | _ + 1, a, [] => [a]
  | n + 1, a, x :: xs => x :: listInsertAt n a xs

/-- CPython `list.insert` index semantics: a negative index counts from the
end, and the result is clamped into `[0, len]` — out-of-range indices never
raise. -/
def pyListInsert (l : List BoxedElement) (nth : Int) (a : BoxedElement) : List BoxedElement :=
  let n : Int := l.length
  let j : Int := if nth < 0 then nth + n else nth
  let j2 : Int := if j < 0 then 0 else if j > n then n else j
  listInsertAt j2.toNat a l

/-- Embeds `Collection.insert`: no-op on a falsy element, otherwise
`_instances.insert(nth, bbox)` with CPython index clamping, and the same
parent union side effect as `append`. -/
def Collection.insert (c : Collection) (nth : Int) (bbox : BoxedElement) : Collection :=
  if !bbox.truthy then c
  else
    match c.parent with
    | none =>
        { c with instances := pyListInsert c.instances nth bbox, inserted := c.inserted ++ [bbox] }
    | some p =>
        { c with
          instances := pyListInsert c.instances nth bbox,
          inserted := c.inserted ++ [bbox],
          parent := some (p.union bbox.bbox),
          unionLog := c.unionLog ++ [bbox.bbox] }

/-- Embeds `Collection.extend`: append each element in order. -/
def Collection.extend (c : Collection) (bboxes : List BoxedElement) : Collection :=
  bboxes.foldl Collection.append c

/-- Embeds `Collection.reset`: clear `_instances`, then extend with the given
elements (the parent reference and the ghost history are untouched by the
clearing). -/
def Collection.reset (c : Collection) (bboxes : List BoxedElement) : Collection :=
  ({ c with instances := [] }).extend bboxes

/-- Embeds `Collection.__getitem__` for integer indices: CPython list
indexing resolves a negative index by adding the length, then raises
`IndexError` (re-raised by the method with its own message) exactly when the
resolved index is outside `[0, len)`. -/
def Collection.getitem (c : Collection) (idx : Int) : Except Unit BoxedElement :=
  let n : Int := c.instances.length
  let j : Int := if idx < 0 then idx + n else idx
  if 0 ≤ j ∧ j < n then .ok (c.instances.getD j.toNat default) else .error ()

/-- A mutation call on a collection, for stating properties over arbitrary
call sequences. -/
inductive Op where
  | append : BoxedElement → Op
  | insertAt : Int → BoxedElement → Op
  | extend : List BoxedElement → Op
  | reset : List BoxedElement → Op

def applyOp (c : Collection) : Op → Collection
  | .append e => c.append e
  | .insertAt n e => c.insert n e
  | .extend es => c.extend es
  | .reset es => c.reset es

def runOps (c : Collection) (ops : List Op) : Collection := ops.foldl applyOp c

/-- Number of indices of `g` that are valid positions of a list of length
`n`; measure component for the grouping recursion. -/
def gcard (n : ℕ) (g : Finset ℕ) : ℕ := (g.filter (fun j => j < n)).card

theorem gcard_lt (n : ℕ) (g : Finset ℕ) (i : ℕ) (hi : i < n) (hg : i ∉ g) :
    gcard n g < n := by
  have hsub : g.filter (fun j => j < n) ⊆ (Finset.range n).erase i := by
    intro x hx
    simp only [Finset.mem_filter] at hx
    simp only [Finset.mem_erase, Finset.mem_range]
    exact ⟨fun he => hg (he ▸ hx.1), hx.2⟩
  have := Finset.card_le_card hsub
  have hr : ((Finset.range n).erase i).card = n - 1 := by
    rw [Finset.card_erase_of_mem (Finset.mem_range.mpr hi)]
    simp
  unfold gcard
  omega

theorem gcard_insert (n : ℕ) (g : Finset ℕ) (i : ℕ) (hi : i < n) (hg : i ∉ g) :
    gcard n (insert i g) = gcard n g + 1 := by
  unfold gcard
  rw [Finset.filter_insert, if_pos hi, Finset.card_insert_of_not_mem]
  simp only [Finset.mem_filter]
  exact fun hc => hg hc.1

theorem gcard_union_insert (n : ℕ) (g X : Finset ℕ) (i : ℕ) (hi : i < n) (hg : i ∉ g) :
    gcard n g + 1 ≤ gcard n (X ∪ insert i g) := by
  have h1 : gcard n (insert i g) ≤ gcard n (X ∪ insert i g) :=
    Finset.card_le_card (Finset.filter_subset_filter _ Finset.subset_union_right)
  rw [gcard_insert n g i hi hg] at h1
  exact h1

theorem measure_step2 (n : ℕ) (g : Finset ℕ) (i : ℕ) (hi : i < n) (hg : i ∉ g) :
    (n - gcard n (insert i g)) * (n + 1) + (n - 0) < (n - gcard n g) * (n + 1) + (n - i) := by
  have h1 := gcard_lt n g i hi hg
  have h2 := gcard_insert n g i hi hg
  have hmul : (n - gcard n g) * (n + 1)
      = (n - gcard n (insert i g)) * (n + 1) + (n + 1) := by
    rw [h2]
    have hA : n - gcard n g = (n - (gcard n g + 1)) + 1 := by omega
    rw [hA]
    ring
  omega

theorem measure_step3 (n : ℕ) (g X : Finset ℕ) (i : ℕ) (hi : i < n) (hg : i ∉ g) :
    (n - gcard n (X ∪ insert i g)) * (n + 1) + (n - (i + 1))
      < (n - gcard n g) * (n + 1) + (n - i) := by
  have h1 := gcard_lt n g i hi hg
  have h2 := gcard_union_insert n g X i hi hg
  have h3 : n - gcard n (X ∪ insert i g) ≤ n - (gcard n g + 1) := by omega
  have h4 := Nat.mul_le_mul_right (n + 1) h3
  have hmul : (n - gcard n g) * (n + 1)
      = (n - (gcard n g + 1)) * (n + 1) + (n + 1) := by
    have hA : n - gcard n g = (n - (gcard n g + 1)) + 1 := by omega
    rw [hA]
    ring
  omega

/-- Embeds `Collection._group_instances`: scan the instances from position
`i`; a processed index is skipped; when `related` holds between the
reference element and the candidate, the candidate index joins the cluster
and the scan recurses with the candidate as new reference before resuming;
otherwise, when the candidate top edge lies strictly below the reference
bottom edge, the scan for this reference stops (the `break` pruning).
Adding `insert i group` into the resumed accumulator is redundant (the
recursive result always contains it, see `group_instances_sub`) and only
serves the termination measure. -/
def group_instances (l : List BoxedElement) (related : Rect → Rect → Bool)
    (bbox : BoxedElement) (group : Finset ℕ) (i : ℕ) : Finset ℕ :=
  if h : i < l.length then
    if i ∈ group then group_instances l related bbox group (i + 1)
    else
      let target := l.get ⟨i, h⟩
      if related bbox.bbox target.bbox then
        let g1 := group_instances l related target (insert i group) 0
        group_instances l related bbox (g1 ∪ insert i group) (i + 1)
      else
        if target.bbox.y0 > bbox.bbox.y1 then group
        else group_instances l related bbox group (i + 1)
  else group
termination_by (l.length - gcard l.length group) * (l.length + 1) + (l.length - i)
decreasing_by
  · omega
  · exact measure_step2 l.length group i h (by assumption)
  · exact measure_step3 l.length group _ i h (by assumption)
  · omega

/-- Embeds the main loop of `Collection.group`: scan the (already sorted)
instances; every index not yet assigned to a cluster seeds a new cluster,
absorbed by `group_instances`, and the counted set grows by the finished
cluster. -/
def group_loop (l : List BoxedElement) (related : Rect → Rect → Bool)
    (counted : Finset ℕ) (i : ℕ) : List (Finset ℕ) :=
  if h : i < l.length then
    if i ∈ counted then group_loop l related counted (i + 1)
    else
      let g := group_instances l related (l.get ⟨i, h⟩) {i} 0
      g :: group_loop l related (counted ∪ g) (i + 1)
  else []
termination_by l.length - i

/-- Membership-faithful materialization of a finished cluster,
`[self._instances[x] for x in group]`, reading the member indices out in
ascending order.  The real comprehension enumerates the set in CPython
set-iteration order, which can differ from ascending once a member index
collides modulo the table size (see `materializePy`, `pySetOrder` and
`claim_C7_counterexample`); every claim proved over this definition is
insensitive to the enumeration order (cluster membership, index sets,
singleton clusters).  The clusters only ever hold valid indices, so the
indexing never fails; an invalid index would contribute nothing here. -/
def materialize (l : List BoxedElement) (g : Finset ℕ) : List BoxedElement :=
  ((List.range l.length).filter (fun j => j ∈ g)).filterMap (fun j => l[j]?)

/-- Index clusters produced by `Collection.group`, before materialization. -/
def Collection.groupIndexSets (c : Collection) (related : Rect → Rect → Bool) :
    List (Finset ℕ) :=
  group_loop (sortInReadingOrder c.instances) related ∅ 0

/-- Embeds `Collection.group`: the instances are first sorted in reading
order, then partition-scanned by `group_loop`; each cluster is materialized
into a new collection of the same kind with no parent attached. -/
def Collection.group (c : Collection) (related : Rect → Rect → Bool) : List Collection :=
  (c.groupIndexSets related).map
    (fun g => ⟨materialize (sortInReadingOrder c.instances) g, none, [], []⟩)

/-! CPython set model: the grouping code stores cluster indices in a Python
set and materializes it with a list comprehension, so the member order is
CPython set-iteration order.  The model below follows Objects/setobject.c
for the sets this code builds: keys are small non-negative ints
(hash(n) = n) and nothing is ever deleted. -/

/-- Number of extra linear probes per probing round (LINEAR_PROBES). -/
def pyLinearProbes : ℕ := 9

/-- Slots inspected in one probing round with base slot `i` of a table with
top index `mask`: the base slot and, when the whole linear window fits in
the table, the next LINEAR_PROBES slots. -/
def pyRoundSlots (mask i : ℕ) : List ℕ :=
  i :: (if i + pyLinearProbes ≤ mask then (List.range pyLinearProbes).map (fun j => i + j + 1)
    else [])

/-- First free slot for hash `h`, following the CPython probe sequence:
round base starts at `h mod size`, the perturb starts at `h`, and each new
round shifts the perturb right by five bits and recurs the base as
`i * 5 + 1 + perturb` modulo the size.  `fuel` bounds the rounds; the fill
rule keeps every table below three fifths full, so a free slot is always
found, and the concrete evaluations in this file find theirs in the first
round. -/
def pyFindFree (table : List (Option ℕ)) : ℕ → ℕ → ℕ → Option ℕ
  | 0, _, _ => none
  | fuel + 1, i, perturb =>
      match (pyRoundSlots (table.length - 1) i).find? (fun s => (table.getD s none).isNone) with
      | some s => some s
      | none =>
          pyFindFree table fuel ((i * 5 + 1 + perturb / 32) % table.length) (perturb / 32)

/-- Store hash `h` in the first free probed slot (no-op on fuel exhaustion,
which no table built by this file reaches). -/
def pySetAddRaw (table : List (Option ℕ)) (h : ℕ) : List (Option ℕ) :=
  match pyFindFree table (table.length * 4 + 16) (h % table.length) h with
  | some s => table.set s (some h)
  | none => table

/-- Number of filled slots. -/
def pyTableFill (table : List (Option ℕ)) : ℕ := (table.filterMap id).length

/-- Smallest power-of-two table size exceeding `minused`, starting from the
minimal size 8 (set_table_resize). -/
def pyNewSizeAux (minused : ℕ) : ℕ → ℕ → ℕ
  | 0, sz => sz
  | fuel + 1, sz => if sz ≤ minused then pyNewSizeAux minused fuel (sz * 2) else sz

def pyNewSize (minused : ℕ) : ℕ := pyNewSizeAux minused (minused + 4) 8

/-- Grow the table to `pyNewSize (used * 4)` (the small-set branch of
set_add_entry) and reinsert the active entries in slot order
(set_insert_clean follows the same probe sequence). -/
def pySetResize (table : List (Option ℕ)) : List (Option ℕ) :=
  (table.filterMap id).foldl pySetAddRaw (List.replicate (pyNewSize (pyTableFill table * 4)) none)

/-- set_add_entry: insert, then resize when the fill reaches three fifths of
the mask (fill * 5 >= mask * 3). -/
def pySetAdd (table : List (Option ℕ)) (h : ℕ) : List (Option ℕ) :=
  let t2 := pySetAddRaw table h
  if pyTableFill t2 * 5 ≥ (t2.length - 1) * 3 then pySetResize t2 else t2

/-- Table of the set built by inserting the given keys in order, starting
from the fresh eight-slot small table. -/
def pySetOfList (inserts : List ℕ) : List (Option ℕ) :=
  inserts.foldl pySetAdd (List.replicate 8 none)

/-- CPython iteration order of a set of small non-negative ints built by
the given insertion sequence: the filled slots in slot order.  For example
`pySetOrder [1, 8] = [8, 1]` — not ascending — because 8 hashes to slot 0
of the eight-slot table. -/
def pySetOrder (inserts : List ℕ) : List ℕ := (pySetOfList inserts).filterMap id

theorem measure_step2L (n : ℕ) (g : List ℕ) (i : ℕ) (hi : i < n) (hg : i ∉ g) :
    (n - gcard n (g ++ [i]).toFinset) * (n + 1) + (n - 0)
      < (n - gcard n g.toFinset) * (n + 1) + (n - i) := by
  have ht : (g ++ [i]).toFinset = insert i g.toFinset := by
    rw [List.toFinset_append]
    simp [Finset.union_comm, Finset.insert_eq]
  rw [ht]
  exact measure_step2 n g.toFinset i hi (by simpa using hg)

theorem measure_step3L (n : ℕ) (g X : List ℕ) (i : ℕ) (hi : i < n) (hg : i ∉ g) :
    (n - gcard n ((g ++ [i]) ++ X).toFinset) * (n + 1) + (n - (i + 1))
      < (n - gcard n g.toFinset) * (n + 1) + (n - i) := by
  have ht : ((g ++ [i]) ++ X).toFinset = X.toFinset ∪ insert i g.toFinset := by
    rw [List.toFinset_append, List.toFinset_append]
    simp [Finset.union_comm, Finset.insert_eq, Finset.union_assoc]
  rw [ht]
  exact measure_step3 n g.toFinset X.toFinset i hi (by simpa using hg)

/-- Order-faithful twin of `group_instances`: the cluster set is carried as
its insertion sequence (Python `set.add` appends to the insertion history;
the `i in group` guard keeps it duplicate-free), which determines the
CPython iteration order at materialization.  The resumed accumulator is
written `(group ++ [i]) ++ g1.drop (group.length + 1)`; the recursion only
ever appends (see `group_instancesSeq_grows`), so this equals `g1` itself —
the shared mutated set — and the shape only serves the termination measure,
exactly like the redundant union in `group_instances`. -/
def group_instancesSeq (l : List BoxedElement) (related : Rect → Rect → Bool)
    (bbox : BoxedElement) (group : List ℕ) (i : ℕ) : List ℕ :=
  if h : i < l.length then
    if i ∈ group then group_instancesSeq l related bbox group (i + 1)
    else
      let target := l.get ⟨i, h⟩
      if related bbox.bbox target.bbox then
        let g1 := group_instancesSeq l related target (group ++ [i]) 0
        group_instancesSeq l related bbox ((group ++ [i]) ++ g1.drop (group.length + 1)) (i + 1)
      else
        if target.bbox.y0 > bbox.bbox.y1 then group
        else group_instancesSeq l related bbox group (i + 1)
  else group
termination_by (l.length - gcard l.length group.toFinset) * (l.length + 1) + (l.length - i)
decreasing_by
  · omega
  · exact measure_step2L l.length group i h (by assumption)
  · exact measure_step3L l.length group _ i h (by assumption)
  · omega

/-- Order-faithful twin of `group_loop`: emits the clusters as insertion
sequences. -/
def group_loopSeq (l : List BoxedElement) (related : Rect → Rect → Bool)
    (counted : Finset ℕ) (i : ℕ) : List (List ℕ) :=
  if h : i < l.length then
    if i ∈ counted then group_loopSeq l related counted (i + 1)
    else
      let g := group_instancesSeq l related (l.get ⟨i, h⟩) [i] 0
      g :: group_loopSeq l related (counted ∪ g.toFinset) (i + 1)
  else []
termination_by l.length - i

/-- Materialization in true CPython set-iteration order of the cluster
insertion sequence. -/
def materializePy (l : List BoxedElement) (g : List ℕ) : List BoxedElement :=
  (pySetOrder g).filterMap (fun j => l[j]?)

/-- Order-faithful twin of `Collection.group`: same clusters (see
`groupSeq_indexSets_agree`), with members in CPython set-iteration order. -/
def Collection.groupPy (c : Collection) (related : Rect → Rect → Bool) : List Collection :=
  (group_loopSeq (sortInReadingOrder c.instances) related ∅ 0).map
    (fun g => ⟨materializePy (sortInReadingOrder c.instances) g, none, [], []⟩)

/-! Helper lemmas about list insertion. -/

theorem listInsertAt_length (n : ℕ) (a : BoxedElement) (l : List BoxedElement) :
    (listInsertAt n a l).length = l.length + 1 := by
  induction n generalizing l with
  | zero => rfl
  | succ m ih =>
      cases l with
      | nil => rfl
      | cons x xs => simp [listInsertAt, ih]

theorem listInsertAt_mem (n : ℕ) (a : BoxedElement) (l : List BoxedElement) :
    a ∈ listInsertAt n a l := by
  induction n generalizing l with
  | zero => exact List.mem_cons_self a l
  | succ m ih =>
      cases l with
      | nil => exact List.mem_singleton.mpr rfl
      | cons x xs => exact List.mem_cons_of_mem x (ih xs)

theorem listInsertAt_append (a : BoxedElement) (l : List BoxedElement) :
    listInsertAt l.length a l = l ++ [a] := by
  induction l with
  | nil => rfl
  | cons x xs ih => simp [listInsertAt, ih]

theorem pyListInsert_length (l : List BoxedElement) (nth : Int) (a : BoxedElement) :
    (pyListInsert l nth a).length = l.length + 1 := by
  unfold pyListInsert
  exact listInsertAt_length _ a l

theorem pyListInsert_mem (l : List BoxedElement) (nth : Int) (a : BoxedElement) :
    a ∈ pyListInsert l nth a := by
  unfold pyListInsert
  exact listInsertAt_mem _ a l

/-! Example data used by witnesses and counterexamples. -/

def exRectA : Rect := ⟨0, 0, 1, 1⟩

def exRectX : Rect := ⟨0, 2, 1, 3⟩

def exRectB : Rect := ⟨0, 4, 1, 5⟩

def exElemA : BoxedElement := ⟨exRectA, none, true⟩

def exElemX : BoxedElement := ⟨exRectX, none, true⟩

def exElemB : BoxedElement := ⟨exRectB, none, true⟩

def exFalsy : BoxedElement := ⟨exRectA, none, false⟩

def exCollP : Collection := ⟨[exElemA], some exRectA, [], []⟩

/-- C9: appending (or inserting) a falsy element is a silent no-op — the
instances, the parent aggregate, and the record of union calls on the parent
are all unchanged. -/
theorem claim_C9 (c : Collection) (e : BoxedElement) (n : Int) (h : e.truthy = false) :
    (c.append e).instances = c.instances ∧
    (c.append e).unionLog = c.unionLog ∧
    (c.append e).parent = c.parent ∧
    (c.insert n e).instances = c.instances ∧
    (c.insert n e).unionLog = c.unionLog ∧
    (c.insert n e).parent = c.parent := by
  unfold Collection.append Collection.insert
  rw [h]
  simp

/-- C9 witness at a concrete collection with a parent attached. -/
theorem claim_C9_witness :
    (exCollP.append exFalsy).instances = exCollP.instances ∧
    (exCollP.append exFalsy).unionLog = exCollP.unionLog ∧
    (exCollP.append exFalsy).parent = exCollP.parent ∧
    (exCollP.insert 0 exFalsy).instances = exCollP.instances ∧
    (exCollP.insert 0 exFalsy).unionLog = exCollP.unionLog ∧
    (exCollP.insert 0 exFalsy).parent = exCollP.parent :=
  claim_C9 exCollP exFalsy 0 rfl

/-- C10: `append`/`insert` decide `empty/absent` solely by the element's
boolean conversion: a falsy element is silently dropped with no state change
at all, and a truthy element is always added. -/
theorem claim_C10 (c : Collection) (e : BoxedElement) (n : Int) :
    (e.truthy = false → c.append e = c ∧ c.insert n e = c) ∧
    (e.truthy = true →
      (c.append e).instances = c.instances ++ [e] ∧
      (c.insert n e).instances.length = c.instances.length + 1 ∧
      e ∈ (c.insert n e).instances) := by
  constructor
  · intro h
    unfold Collection.append Collection.insert
    rw [h]
    simp
  · intro h
    unfold Collection.append Collection.insert
    rw [h]
    refine ⟨?_, ?_, ?_⟩
    · cases hp : c.parent <;> simp
    · cases hp : c.parent <;> simp [pyListInsert_length]
    · cases hp : c.parent <;> simp [pyListInsert_mem]

/-- C10 witness: a falsy element is dropped, a truthy one inserted. -/
theorem claim_C10_witness :
    (exCollP.append exFalsy = exCollP ∧ exCollP.insert 0 exFalsy = exCollP) ∧
    ((exCollP.append exElemB).instances = exCollP.instances ++ [exElemB] ∧
      (exCollP.insert 0 exElemB).instances.length = exCollP.instances.length + 1 ∧
      exElemB ∈ (exCollP.insert 0 exElemB).instances) :=
  ⟨(claim_C10 exCollP exFalsy 0).1 rfl, (claim_C10 exCollP exElemB 0).2 rfl⟩

/-! Helper lemmas for text-direction resolution. -/

theorem dedup_all_eq (l : List BoxedElement) (d : TextDirection)
    (hne : l ≠ []) (hall : ∀ e ∈ l, e.dir = some d) :
    (l.filterMap (fun x => x.dir)).dedup = [d] := by
  induction l with
  | nil => exact absurd rfl hne
  | cons e rest ih =>
      have hd : e.dir = some d := hall e (List.mem_cons_self e rest)
      cases rest with
      | nil => simp [List.filterMap, hd]
      | cons f rest2 =>
          have hrec : ((f :: rest2).filterMap (fun x => x.dir)).dedup = [d] :=
            ih (by simp) (fun x hx => hall x (List.mem_cons_of_mem e hx))
          have hstep : ((e :: f :: rest2).filterMap (fun x => x.dir))
              = d :: ((f :: rest2).filterMap (fun x => x.dir)) := by
            simp [List.filterMap_cons, hd]
          rw [hstep, List.dedup_cons_of_mem, hrec]
          have : d ∈ ((f :: rest2).filterMap (fun x => x.dir)).dedup := by
            rw [hrec]; exact List.mem_singleton.mpr rfl
          exact List.mem_dedup.mp this

/-- C3: direction resolution returns `LEFT_RIGHT` on an empty sequence or
when the elements do not expose a text direction; when all elements expose a
direction and exactly one distinct value occurs it returns that value; when
all expose one and at least two distinct values occur it returns `IGNORE`. -/
theorem claim_C3 (c : Collection) :
    (c.instances = [] → c.text_direction = .ok .LEFT_RIGHT) ∧
    ((∀ e ∈ c.instances, e.dir = none) → c.text_direction = .ok .LEFT_RIGHT) ∧
    (∀ d : TextDirection, c.instances ≠ [] → (∀ e ∈ c.instances, e.dir = some d) →
      c.text_direction = .ok d) ∧
    ((∀ e ∈ c.instances, e.dir.isSome) →
      (∃ e1 ∈ c.instances, ∃ e2 ∈ c.instances, ∃ d1 d2,
        e1.dir = some d1 ∧ e2.dir = some d2 ∧ d1 ≠ d2) →
      c.text_direction = .ok .IGNORE) := by
  unfold Collection.text_direction
  refine ⟨?_, ?_, ?_, ?_⟩
  · intro h
    rw [h]
    rfl
  · intro h
    cases hi : c.instances with
    | nil => rfl
    | cons e rest =>
        have : e.dir = none := h e (by rw [hi]; exact List.mem_cons_self e rest)
        simp [textDirectionOf, this]
  · intro d hne hall
    cases hi : c.instances with
    | nil => exact absurd hi hne
    | cons e rest =>
        rw [hi] at hall
        have hd : e.dir = some d := hall e (List.mem_cons_self e rest)
        have hded := dedup_all_eq (e :: rest) d (by simp) hall
        simp only [textDirectionOf, hd, Option.isSome_some, if_pos]
        rw [if_pos, hded]
        exact List.all_eq_true.mpr (fun x hx => by rw [hall x hx]; rfl)
  · intro hall hex
    cases hi : c.instances with
    | nil =>
        rw [hi] at hex
        obtain ⟨e1, he1, _⟩ := hex
        exact absurd he1 (List.not_mem_nil e1)
    | cons e rest =>
        rw [hi] at hall hex
        obtain ⟨e1, he1, e2, he2, d1, d2, hd1, hd2, hne⟩ := hex
        have h1 : e.dir.isSome := hall e (List.mem_cons_self e rest)
        have hallb : (e :: rest).all (fun x => x.dir.isSome) =  true :=
          List.all_eq_true.mpr (fun x hx => hall x hx)
        have hmem1 : d1 ∈ ((e :: rest).filterMap (fun x => x.dir)).dedup :=
          List.mem_dedup.mpr (List.mem_filterMap.mpr ⟨e1, he1, hd1⟩)
        have hmem2 : d2 ∈ ((e :: rest).filterMap (fun x => x.dir)).dedup :=
          List.mem_dedup.mpr (List.mem_filterMap.mpr ⟨e2, he2, hd2⟩)
        simp only [textDirectionOf, h1, if_pos, hallb, if_true]
        cases hded : ((e :: rest).filterMap (fun x => x.dir)).dedup with
        | nil => rfl
        | cons x tail =>
            cases tail with
            | nil =>
                rw [hded] at hmem1 hmem2
                have hx1 : d1 = x := List.mem_singleton.mp hmem1
                have hx2 : d2 = x := List.mem_singleton.mp hmem2
                exact absurd (hx1.trans hx2.symm) hne
            | cons y tail2 => rfl

/-- C3 witness at concrete sequences: empty, no-direction, uniform, mixed. -/
theorem claim_C3_witness :
    (⟨[⟨exRectA, some .BOTTOM_TOP, true⟩], none, [], []⟩ : Collection).text_direction
      = .ok .BOTTOM_TOP :=
  (claim_C3 ⟨[⟨exRectA, some .BOTTOM_TOP, true⟩], none, [], []⟩).2.2.1 .BOTTOM_TOP
    (by simp) (by intro e he; simp at he; rw [he])

def exColl1 : Collection := ⟨[exElemA], none, [], []⟩

def exColl2 : Collection := ⟨[exElemB, exElemA], none, [], []⟩

/-- C5 counterexample: on a one-element collection the index `-1` lies
outside `[0, 1)` yet indexed access succeeds (CPython negative indexing)
instead of raising, so `raises iff outside [0, len)` is false. -/
theorem claim_C5_counterexample :
    exColl1.getitem (-1) = .ok exElemA ∧ ((-1 : Int) < 0 ∨ (1 : Int) ≤ -1) :=
  ⟨rfl, Or.inl (by norm_num)⟩

/-- C5 amended: indexed read access raises exactly when the index is outside
`[-len, len)` (a negative index counts from the end); an index in `[0, len)`
returns the element at that position, and the access is read-only. -/
theorem claim_C5 (c : Collection) (idx : Int) :
    (c.getitem idx = .error () ↔
      (idx < -(c.instances.length : Int) ∨ (c.instances.length : Int) ≤ idx)) ∧
    (0 ≤ idx → idx < (c.instances.length : Int) →
      c.getitem idx = .ok (c.instances.getD idx.toNat default)) := by
  constructor
  · simp only [Collection.getitem]
    split_ifs with h1 h2 h2
    · exact iff_of_false (by simp) (by omega)
    · exact iff_of_true rfl (by omega)
    · exact iff_of_false (by simp) (by omega)
    · exact iff_of_true rfl (by omega)
  · intro h0 hlt
    simp only [Collection.getitem]
    split_ifs with h1 h2 h2
    · omega
    · omega
    · rfl
    · omega

/-- C5 amended witness: index 0 of a one-element collection. -/
theorem claim_C5_witness :
    (exColl1.getitem 0 = .error () ↔
      ((0 : Int) < -(exColl1.instances.length : Int) ∨ (exColl1.instances.length : Int) ≤ 0)) ∧
    ((0 : Int) ≤ 0 → (0 : Int) < (exColl1.instances.length : Int) →
      exColl1.getitem 0 = .ok (exColl1.instances.getD (0 : Int).toNat default)) :=
  claim_C5 exColl1 0

/-- C4 counterexample: inserting a non-empty element at index 5 of a
one-element collection raises nothing and the element is added (CPython
clamps the position), contradicting `IndexOutOfRange` and `not added`. -/
theorem claim_C4_counterexample :
    (exColl1.insert 5 exElemB).instances = [exElemA, exElemB] ∧
    exColl1.instances.length = 1 :=
  ⟨rfl, rfl⟩

theorem pyListInsert_ge (l : List BoxedElement) (nth : Int) (a : BoxedElement)
    (h : (l.length : Int) ≤ nth) : pyListInsert l nth a = l ++ [a] := by
  simp only [pyListInsert]
  split_ifs with h1 h2 h3
  · exact (False.elim (by omega))
  · exact (False.elim (by omega))
  · exact (False.elim (by omega))
  · have ht : ((l.length : Int)).toNat = l.length := by omega
    rw [ht]
    exact listInsertAt_append a l
  · have hn : nth = (l.length : Int) := by omega
    rw [hn]
    have ht : ((l.length : Int)).toNat = l.length := by omega
    rw [ht]
    exact listInsertAt_append a l

theorem pyListInsert_le (l : List BoxedElement) (nth : Int) (a : BoxedElement)
    (h : nth ≤ -(l.length : Int)) : pyListInsert l nth a = a :: l := by
  simp only [pyListInsert]
  split_ifs with h1 h2 h3
  · rfl
  · exact (False.elim (by omega))
  · have ht : (nth + (l.length : Int)).toNat = 0 := by omega
    rw [ht]
    rfl
  · exact (False.elim (by omega))
  · have ht : nth.toNat = 0 := by omega
    rw [ht]
    rfl

/-- C4 amended: `insert` with an index outside the current bounds does not
raise; the index is clamped to the nearest end (negative indices count from
the end first), so the element is always added: at the back when the index
is at least `len`, at the front when it is at most `-len`. -/
theorem claim_C4 (c : Collection) (nth : Int) (e : BoxedElement) (h : e.truthy = true) :
    (c.insert nth e).instances.length = c.instances.length + 1 ∧
    e ∈ (c.insert nth e).instances ∧
    ((c.instances.length : Int) ≤ nth → (c.insert nth e).instances = c.instances ++ [e]) ∧
    (nth ≤ -(c.instances.length : Int) → (c.insert nth e).instances = e :: c.instances) := by
  have hinst : (c.insert nth e).instances = pyListInsert c.instances nth e := by
    unfold Collection.insert
    rw [h]
    cases c.parent <;> rfl
  rw [hinst]
  exact ⟨pyListInsert_length _ _ _, pyListInsert_mem _ _ _,
    pyListInsert_ge c.instances nth e, pyListInsert_le c.instances nth e⟩

/-- C4 amended witness: out-of-bounds insert at index 5 clamps to the back. -/
theorem claim_C4_witness :
    (exColl1.insert 5 exElemB).instances.length = exColl1.instances.length + 1 ∧
    exElemB ∈ (exColl1.insert 5 exElemB).instances ∧
    ((exColl1.instances.length : Int) ≤ 5 →
      (exColl1.insert 5 exElemB).instances = exColl1.instances ++ [exElemB]) ∧
    ((5 : Int) ≤ -(exColl1.instances.length : Int) →
      (exColl1.insert 5 exElemB).instances = exElemB :: exColl1.instances) :=
  claim_C4 exColl1 5 exElemB rfl

/-! Monotonicity of the parent aggregate union. -/

theorem Rect.contains_union_right (p q : Rect) : (p.union q).contains q :=
  ⟨min_le_right _ _, min_le_right _ _, le_max_right _ _, le_max_right _ _⟩

theorem Rect.contains_union_mono (p q r : Rect) (h : p.contains r) :
    (p.union q).contains r :=
  ⟨le_trans (min_le_left _ _) h.1, le_trans (min_le_left _ _) h.2.1,
    le_trans h.2.2.1 (le_max_left _ _), le_trans h.2.2.2 (le_max_left _ _)⟩

/-- Invariant: every element ever successfully inserted is enclosed by the
parent aggregate, whenever a parent is attached. -/
def parentEncloses (c : Collection) : Prop :=
  ∀ r : Rect, c.parent = some r → ∀ e ∈ c.inserted, r.contains e.bbox

theorem parentEncloses_append (c : Collection) (e : BoxedElement)
    (h : parentEncloses c) : parentEncloses (c.append e) := by
  cases ht : e.truthy with
  | false =>
      have : c.append e = c := by simp [Collection.append, ht]
      rw [this]
      exact h
  | true =>
      cases hp : c.parent with
      | none =>
          intro r hr x hx
          simp [Collection.append, ht, hp] at hr
      | some p =>
          intro r hr x hx
          simp [Collection.append, ht, hp] at hr hx
          cases hx with
          | inl hmem =>
              rw [← hr]
              exact Rect.contains_union_mono p e.bbox x.bbox (h p hp x hmem)
          | inr hlast =>
              rw [← hr, hlast]
              exact Rect.contains_union_right p e.bbox

theorem parentEncloses_insert (c : Collection) (n : Int) (e : BoxedElement)
    (h : parentEncloses c) : parentEncloses (c.insert n e) := by
  cases ht : e.truthy with
  | false =>
      have : c.insert n e = c := by simp [Collection.insert, ht]
      rw [this]
      exact h
  | true =>
      cases hp : c.parent with
      | none =>
          intro r hr x hx
          simp [Collection.insert, ht, hp] at hr
      | some p =>
          intro r hr x hx
          simp [Collection.insert, ht, hp] at hr hx
          cases hx with
          | inl hmem =>
              rw [← hr]
              exact Rect.contains_union_mono p e.bbox x.bbox (h p hp x hmem)
          | inr hlast =>
              rw [← hr, hlast]
              exact Rect.contains_union_right p e.bbox

theorem parentEncloses_extend (c : Collection) (es : List BoxedElement)
    (h : parentEncloses c) : parentEncloses (c.extend es) := by
  induction es generalizing c with
  | nil => exact h
  | cons x xs ih =>
      have h1 : parentEncloses (c.append x) := parentEncloses_append c x h
      exact ih (c.append x) h1

theorem parentEncloses_reset (c : Collection) (es : List BoxedElement)
    (h : parentEncloses c) : parentEncloses (c.reset es) := by
  unfold Collection.reset
  apply parentEncloses_extend
  intro r hr x hx
  exact h r hr x hx

theorem parentEncloses_applyOp (c : Collection) (op : Op)
    (h : parentEncloses c) : parentEncloses (applyOp c op) := by
  cases op with
  | append e => exact parentEncloses_append c e h
  | insertAt n e => exact parentEncloses_insert c n e h
  | extend es => exact parentEncloses_extend c es h
  | reset es => exact parentEncloses_reset c es h

theorem parentEncloses_runOps (c : Collection) (ops : List Op)
    (h : parentEncloses c) : parentEncloses (runOps c ops) := by
  induction ops generalizing c with
  | nil => exact h
  | cons op rest ih => exact ih (applyOp c op) (parentEncloses_applyOp c op h)

/-- C2: starting from a collection with a parent attached, after any
sequence of `append`/`insert`/`extend`/`reset` calls the parent aggregate
(whose `union` is modelled as the monotonic rectangle union) encloses the
bbox of every element ever successfully inserted, even if elements were
later removed by `reset`. -/
theorem claim_C2 (insts : List BoxedElement) (p0 : Rect) (ops : List Op) (r : Rect)
    (h : (runOps ⟨insts, some p0, [], []⟩ ops).parent = some r) :
    ∀ e ∈ (runOps ⟨insts, some p0, [], []⟩ ops).inserted, r.contains e.bbox := by
  have hinv : parentEncloses (⟨insts, some p0, [], []⟩ : Collection) := by
    intro q hq x hx
    exact absurd hx (List.not_mem_nil x)
  exact parentEncloses_runOps ⟨insts, some p0, [], []⟩ ops hinv r h

/-- C2 witness: a reset after an append does not evict the appended element
from the aggregate. -/
theorem claim_C2_witness :
    (exRectA.union exRectB).contains exElemB.bbox :=
  claim_C2 [] exRectA [Op.append exElemB, Op.reset []] (exRectA.union exRectB) rfl
    exElemB (by decide)

/-! Lawfulness of the key comparisons, and direction under permutation. -/

theorem tupleLe_trans (a b c : Int × Int × Int)
    (h1 : tupleLe a b = true) (h2 : tupleLe b c = true) : tupleLe a c = true := by
  simp only [tupleLe, Bool.or_eq_true, Bool.and_eq_true, decide_eq_true_eq] at h1 h2 ⊢
  omega

theorem tupleLe_total (a b : Int × Int × Int) :
    (tupleLe a b || tupleLe b a) = true := by
  simp only [tupleLe, Bool.or_eq_true, Bool.and_eq_true, decide_eq_true_eq]
  omega

theorem keyLe_trans (k : BoxedElement → Int × Int × Int) (a b c : BoxedElement)
    (h1 : keyLe k a b) (h2 : keyLe k b c) : keyLe k a c :=
  tupleLe_trans (k a) (k b) (k c) h1 h2

theorem keyLe_total (k : BoxedElement → Int × Int × Int) (a b : BoxedElement) :
    keyLe k a b || keyLe k b a :=
  tupleLe_total (k a) (k b)

/-- C6: both sort operations order ascending by the documented key tuple —
reading order by `(x0, y1, y0)` under `BOTTOM_TOP` and `(y0, x0, x1)`
otherwise, line order by `(y1, x0, y0)` under `BOTTOM_TOP` and
`(x0, y0, x1)` otherwise — and both results are permutations of the
original contents. -/
theorem claim_C6 (c : Collection) (d : TextDirection) (h : c.text_direction = .ok d) :
    ((d = .BOTTOM_TOP →
        (sortInReadingOrder c.instances).Pairwise (fun a b => keyLe readingKeyBT a b = true)) ∧
      (d ≠ .BOTTOM_TOP →
        (sortInReadingOrder c.instances).Pairwise (fun a b => keyLe readingKeyLR a b = true)) ∧
      List.Perm (sortInReadingOrder c.instances) c.instances) ∧
    ((d = .BOTTOM_TOP →
        (sortInLineOrder c.instances).Pairwise (fun a b => keyLe lineKeyBT a b = true)) ∧
      (d ≠ .BOTTOM_TOP →
        (sortInLineOrder c.instances).Pairwise (fun a b => keyLe lineKeyLR a b = true)) ∧
      List.Perm (sortInLineOrder c.instances) c.instances) := by
  unfold Collection.text_direction at h
  constructor
  · refine ⟨?_, ?_, ?_⟩
    · intro hbt
      simp only [sortInReadingOrder, h, if_pos hbt]
      exact List.sorted_mergeSort (keyLe_trans readingKeyBT) (keyLe_total readingKeyBT)
        c.instances
    · intro hbt
      simp only [sortInReadingOrder, h, if_neg hbt]
      exact List.sorted_mergeSort (keyLe_trans readingKeyLR) (keyLe_total readingKeyLR)
        c.instances
    · simp only [sortInReadingOrder, h]
      split <;> exact List.mergeSort_perm c.instances _
  · refine ⟨?_, ?_, ?_⟩
    · intro hbt
      simp only [sortInLineOrder, h, if_pos hbt]
      exact List.sorted_mergeSort (keyLe_trans lineKeyBT) (keyLe_total lineKeyBT)
        c.instances
    · intro hbt
      simp only [sortInLineOrder, h, if_neg hbt]
      exact List.sorted_mergeSort (keyLe_trans lineKeyLR) (keyLe_total lineKeyLR)
        c.instances
    · simp only [sortInLineOrder, h]
      split <;> exact List.mergeSort_perm c.instances _

/-- C6 witness: two stacked elements without direction attributes resolve to
the default direction and sort by `(y0, x0, x1)`. -/
theorem claim_C6_witness :
    (((TextDirection.LEFT_RIGHT = .BOTTOM_TOP →
        (sortInReadingOrder exColl2.instances).Pairwise
          (fun a b => keyLe readingKeyBT a b = true)) ∧
      (TextDirection.LEFT_RIGHT ≠ .BOTTOM_TOP →
        (sortInReadingOrder exColl2.instances).Pairwise
          (fun a b => keyLe readingKeyLR a b = true)) ∧
      List.Perm (sortInReadingOrder exColl2.instances) exColl2.instances) ∧
    ((TextDirection.LEFT_RIGHT = .BOTTOM_TOP →
        (sortInLineOrder exColl2.instances).Pairwise
          (fun a b => keyLe lineKeyBT a b = true)) ∧
      (TextDirection.LEFT_RIGHT ≠ .BOTTOM_TOP →
        (sortInLineOrder exColl2.instances).Pairwise
          (fun a b => keyLe lineKeyLR a b = true)) ∧
      List.Perm (sortInLineOrder exColl2.instances) exColl2.instances)) :=
  claim_C6 exColl2 .LEFT_RIGHT rfl

theorem textDirectionOf_perm (l1 l2 : List BoxedElement) (hp : List.Perm l1 l2)
    (d : TextDirection) (h : textDirectionOf l1 = .ok d) :
    textDirectionOf l2 = .ok d ∨ textDirectionOf l2 = .error () := by
  cases l1 with
  | nil =>
      have : l2 = [] := List.Perm.eq_nil hp.symm
      subst this
      exact Or.inl h
  | cons e r1 =>
      cases l2 with
      | nil => exact absurd (List.Perm.eq_nil hp) (by simp)
      | cons f r2 =>
          by_cases he : e.dir.isSome
          · -- first element of l1 exposes a direction, so the set branch ran
            simp only [textDirectionOf, if_pos he] at h
            by_cases hall : (e :: r1).all (fun x => x.dir.isSome) = true
            · have hall2 : (f :: r2).all (fun x => x.dir.isSome) = true := by
                rw [List.all_eq_true] at hall ⊢
                intro x hx
                exact hall x (hp.mem_iff.mpr hx)
              have hf : f.dir.isSome := by
                rw [List.all_eq_true] at hall2
                exact hall2 f (List.mem_cons_self f r2)
              have hded : List.Perm (((e :: r1).filterMap (fun x => x.dir)).dedup)
                  (((f :: r2).filterMap (fun x => x.dir)).dedup) :=
                (hp.filterMap (fun x => x.dir)).dedup
              rw [if_pos hall] at h
              simp only [textDirectionOf, if_pos hf, if_pos hall2]
              cases hd1 : ((e :: r1).filterMap (fun x => x.dir)).dedup with
              | nil =>
                  rw [hd1] at h hded
                  have : ((f :: r2).filterMap (fun x => x.dir)).dedup = [] :=
                    List.Perm.eq_nil hded.symm
                  rw [this]
                  exact Or.inl h
              | cons x tail =>
                  cases tail with
                  | nil =>
                      rw [hd1] at h hded
                      have : ((f :: r2).filterMap (fun x => x.dir)).dedup = [x] :=
                        List.perm_singleton.mp hded.symm
                      rw [this]
                      exact Or.inl h
                  | cons y tail2 =>
                      rw [hd1] at h hded
                      have hlen := hded.length_eq
                      cases hd2 : ((f :: r2).filterMap (fun x => x.dir)).dedup with
                      | nil => rw [hd2] at hlen; simp at hlen
                      | cons u tail3 =>
                          cases tail3 with
                          | nil => rw [hd2] at hlen; simp at hlen
                          | cons v tail4 => exact Or.inl h
            · rw [if_neg hall] at h
              exact absurd h (by simp)
          · -- first element of l1 lacks the attribute: default branch
            simp only [textDirectionOf, if_neg he] at h
            by_cases hf : f.dir.isSome
            · right
              have hmem : e ∈ f :: r2 := hp.mem_iff.mp (List.mem_cons_self e r1)
              have hall2 : (f :: r2).all (fun x => x.dir.isSome) = false := by
                rw [List.all_eq_false]
                exact ⟨e, hmem, by simpa using he⟩
              simp only [textDirectionOf, if_pos hf, hall2]
              simp
            · left
              simp only [textDirectionOf, if_neg hf]
              exact h

theorem sortRead_eq_of_ok (l : List BoxedElement) (d : TextDirection)
    (h : textDirectionOf l = .ok d) :
    sortInReadingOrder l
      = if d = .BOTTOM_TOP then l.mergeSort (keyLe readingKeyBT)
        else l.mergeSort (keyLe readingKeyLR) := by
  unfold sortInReadingOrder
  rw [h]

theorem sortRead_eq_of_error (l : List BoxedElement)
    (h : textDirectionOf l = .error ()) : sortInReadingOrder l = l := by
  unfold sortInReadingOrder
  rw [h]

theorem sortInReadingOrder_perm (l : List BoxedElement) :
    List.Perm (sortInReadingOrder l) l := by
  cases h : textDirectionOf l with
  | error e =>
      cases e
      rw [sortRead_eq_of_error l h]
  | ok d =>
      rw [sortRead_eq_of_ok l d h]
      split <;> exact List.mergeSort_perm l _

theorem sortInReadingOrder_idem (l : List BoxedElement) :
    sortInReadingOrder (sortInReadingOrder l) = sortInReadingOrder l := by
  cases hd : textDirectionOf l with
  | error e =>
      cases e
      rw [sortRead_eq_of_error l hd]
      exact sortRead_eq_of_error l hd
  | ok d =>
      have hperm : List.Perm l (sortInReadingOrder l) := (sortInReadingOrder_perm l).symm
      rcases textDirectionOf_perm l (sortInReadingOrder l) hperm d hd with h2 | h2
      · rw [sortRead_eq_of_ok (sortInReadingOrder l) d h2]
        by_cases hbt : d = .BOTTOM_TOP
        · rw [if_pos hbt]
          apply List.mergeSort_of_sorted
          rw [sortRead_eq_of_ok l d hd, if_pos hbt]
          exact List.sorted_mergeSort (keyLe_trans readingKeyBT) (keyLe_total readingKeyBT) l
        · rw [if_neg hbt]
          apply List.mergeSort_of_sorted
          rw [sortRead_eq_of_ok l d hd, if_neg hbt]
          exact List.sorted_mergeSort (keyLe_trans readingKeyLR) (keyLe_total readingKeyLR) l
      · exact sortRead_eq_of_error (sortInReadingOrder l) h2

/-- C8: sorting in reading order twice produces the same state as sorting
once — the second call leaves the element order (and the whole collection)
unchanged. -/
theorem claim_C8 (c : Collection) :
    c.sort_in_reading_order.sort_in_reading_order = c.sort_in_reading_order := by
  unfold Collection.sort_in_reading_order
  simp only [sortInReadingOrder_idem]

/-! Grouping: monotonicity, index bounds, chain connectivity. -/

/-- One link of the chain the spec describes: two elements of the sequence
related in either argument order. -/
def chainStep (related : Rect → Rect → Bool) (L : List BoxedElement)
    (a b : BoxedElement) : Prop :=
  a ∈ L ∧ b ∈ L ∧ (related a.bbox b.bbox = true ∨ related b.bbox a.bbox = true)

/-- Chain connectivity: a finite chain of `chainStep` links through elements
of the sequence. -/
def chainConnected (related : Rect → Rect → Bool) (L : List BoxedElement)
    (a b : BoxedElement) : Prop :=
  Relation.ReflTransGen (chainStep related L) a b

theorem chainStep_symm (related : Rect → Rect → Bool) (L : List BoxedElement) :
    Symmetric (chainStep related L) := by
  intro a b h
  exact ⟨h.2.1, h.1, h.2.2.symm⟩

theorem chainConnected_symm (related : Rect → Rect → Bool) (L : List BoxedElement)
    (a b : BoxedElement) (h : chainConnected related L a b) :
    chainConnected related L b a :=
  Relation.ReflTransGen.symmetric (chainStep_symm related L) h

theorem group_instances_sub (l : List BoxedElement) (related : Rect → Rect → Bool)
    (e : BoxedElement) (g : Finset ℕ) (i : ℕ) :
    g ⊆ group_instances l related e g i := by
  refine group_instances.induct l related
    (fun e g i => g ⊆ group_instances l related e g i) ?_ ?_ ?_ ?_ ?_ e g i
  · intro e g i h hmem ih
    rw [group_instances.eq_def]
    simp only [dif_pos h, if_pos hmem]
    exact ih
  · intro e g i h hmem target hrel g1 ih1 ih2 ihc
    rw [group_instances.eq_def]
    simp only [dif_pos h, if_neg hmem, hrel, if_pos]
    intro x hx
    exact ihc (Finset.mem_union_right _ (Finset.mem_insert_of_mem hx))
  · intro e g i h hmem target hrel hbrk
    rw [group_instances.eq_def]
    simp only [dif_pos h, if_neg hmem, hrel, if_pos hbrk]
    exact fun x hx => hx
  · intro e g i h hmem target hrel hbrk ih
    rw [group_instances.eq_def]
    simp only [dif_pos h, if_neg hmem, hrel, if_neg hbrk]
    exact ih
  · intro e g i h
    rw [group_instances.eq_def]
    simp only [dif_neg h]
    exact fun x hx => hx

theorem group_instances_lt (l : List BoxedElement) (related : Rect → Rect → Bool)
    (e : BoxedElement) (g : Finset ℕ) (i : ℕ) :
    ∀ j ∈ group_instances l related e g i, j ∈ g ∨ j < l.length := by
  refine group_instances.induct l related
    (fun e g i => ∀ j ∈ group_instances l related e g i, j ∈ g ∨ j < l.length)
    ?_ ?_ ?_ ?_ ?_ e g i
  · intro e g i h hmem ih j hj
    rw [group_instances.eq_def] at hj
    simp only [dif_pos h, if_pos hmem] at hj
    exact ih j hj
  · intro e g i h hmem target hrel g1 ih1 ih2 ihc j hj
    rw [group_instances.eq_def] at hj
    simp only [dif_pos h, if_neg hmem, hrel, if_pos] at hj
    rcases ihc j hj with hin | hlt
    · rcases Finset.mem_union.mp hin with hg1 | hins
      · rcases ih2 j hg1 with hins2 | hlt2
        · rcases Finset.mem_insert.mp hins2 with he | hg
          · exact Or.inr (he ▸ h)
          · exact Or.inl hg
        · exact Or.inr hlt2
      · rcases Finset.mem_insert.mp hins with he | hg
        · exact Or.inr (he ▸ h)
        · exact Or.inl hg
    · exact Or.inr hlt
  · intro e g i h hmem target hrel hbrk j hj
    rw [group_instances.eq_def] at hj
    simp only [dif_pos h, if_neg hmem, hrel, if_pos hbrk] at hj
    exact Or.inl hj
  · intro e g i h hmem target hrel hbrk ih j hj
    rw [group_instances.eq_def] at hj
    simp only [dif_pos h, if_neg hmem, hrel, if_neg hbrk] at hj
    exact ih j hj
  · intro e g i h j hj
    rw [group_instances.eq_def] at hj
    simp only [dif_neg h] at hj
    exact Or.inl hj

theorem group_instances_conn (l : List BoxedElement) (related : Rect → Rect → Bool)
    (root : BoxedElement) (e : BoxedElement) (g : Finset ℕ) (i : ℕ)
    (he : e ∈ l) (hconn : chainConnected related l root e)
    (hg : ∀ j, j ∈ g → ∀ hlt : j < l.length, chainConnected related l root (l.get ⟨j, hlt⟩)) :
    ∀ j, j ∈ group_instances l related e g i → ∀ hlt : j < l.length,
      chainConnected related l root (l.get ⟨j, hlt⟩) := by
  refine group_instances.induct l related
    (fun e g i => e ∈ l → chainConnected related l root e →
      (∀ j, j ∈ g → ∀ hlt : j < l.length, chainConnected related l root (l.get ⟨j, hlt⟩)) →
      ∀ j, j ∈ group_instances l related e g i → ∀ hlt : j < l.length,
        chainConnected related l root (l.get ⟨j, hlt⟩))
    ?_ ?_ ?_ ?_ ?_ e g i he hconn hg
  · intro e g i h hmem ih he hconn hg j hj hlt
    rw [group_instances.eq_def] at hj
    simp only [dif_pos h, if_pos hmem] at hj
    exact ih he hconn hg j hj hlt
  · intro e g i h hmem target hrel g1 ih1 ih2 ihc he hconn hg j hj hlt
    rw [group_instances.eq_def] at hj
    simp only [dif_pos h, if_neg hmem, hrel, if_pos] at hj
    have htmem : l.get ⟨i, h⟩ ∈ l := List.get_mem l i h
    have hstep : chainStep related l e (l.get ⟨i, h⟩) := ⟨he, htmem, Or.inl hrel⟩
    have hconnT : chainConnected related l root (l.get ⟨i, h⟩) :=
      Relation.ReflTransGen.tail hconn hstep
    have hg2 : ∀ j, j ∈ insert i g → ∀ hlt : j < l.length,
        chainConnected related l root (l.get ⟨j, hlt⟩) := by
      intro j hj hlt
      rcases Finset.mem_insert.mp hj with hji | hjg
      · subst hji
        exact hconnT
      · exact hg j hjg hlt
    have hAll1 := ih2 htmem hconnT hg2
    have hg3 : ∀ j, j ∈ group_instances l related (l.get ⟨i, h⟩) (insert i g) 0 ∪ insert i g →
        ∀ hlt : j < l.length, chainConnected related l root (l.get ⟨j, hlt⟩) := by
      intro j hj hlt
      rcases Finset.mem_union.mp hj with hj1 | hj2
      · exact hAll1 j hj1 hlt
      · exact hg2 j hj2 hlt
    exact ihc he hconn hg3 j hj hlt
  · intro e g i h hmem target hrel hbrk he hconn hg j hj hlt
    rw [group_instances.eq_def] at hj
    simp only [dif_pos h, if_neg hmem, hrel, if_pos hbrk] at hj
    exact hg j hj hlt
  · intro e g i h hmem target hrel hbrk ih he hconn hg j hj hlt
    rw [group_instances.eq_def] at hj
    simp only [dif_pos h, if_neg hmem, hrel, if_neg hbrk] at hj
    exact ih he hconn hg j hj hlt
  · intro e g i h he hconn hg j hj hlt
    rw [group_instances.eq_def] at hj
    simp only [dif_neg h] at hj
    exact hg j hj hlt

theorem filterMap_getElem_range (l : List BoxedElement) :
    (List.range l.length).filterMap (fun j => l[j]?) = l := by
  induction l with
  | nil => rfl
  | cons x xs ih =>
      have hr : List.range (x :: xs).length = 0 :: (List.range xs.length).map (· + 1) := by
        simp [List.range_succ_eq_map]
      rw [hr]
      simp only [List.filterMap_cons]
      have h0 : (x :: xs)[0]? = some x := by simp
      rw [h0, List.filterMap_map]
      have hcomp : ((fun j => (x :: xs)[j]?) ∘ (· + 1)) = fun j => xs[j]? := by
        funext j
        simp
      rw [hcomp, ih]

theorem mem_materialize (l : List BoxedElement) (g : Finset ℕ) (a : BoxedElement) :
    a ∈ materialize l g ↔ ∃ j, j ∈ g ∧ ∃ hj : j < l.length, l.get ⟨j, hj⟩ = a := by
  unfold materialize
  rw [List.mem_filterMap]
  constructor
  · rintro ⟨j, hj, hsome⟩
    rw [List.mem_filter, List.mem_range] at hj
    rw [List.getElem?_eq_getElem hj.1] at hsome
    exact ⟨j, by simpa using hj.2, hj.1, by simpa using hsome⟩
  · rintro ⟨j, hjg, hj, hget⟩
    refine ⟨j, ?_, ?_⟩
    · rw [List.mem_filter, List.mem_range]
      exact ⟨hj, by simpa using hjg⟩
    · rw [List.getElem?_eq_getElem hj]
      simpa using hget

theorem materialize_sublist (l : List BoxedElement) (g : Finset ℕ) :
    (materialize l g).Sublist l := by
  unfold materialize
  have h1 : ((List.range l.length).filter (fun j => j ∈ g)).Sublist (List.range l.length) :=
    List.filter_sublist _
  have h2 := List.Sublist.filterMap (f := fun j => l[j]?) h1
  rw [filterMap_getElem_range l] at h2
  exact h2

theorem group_loop_shape (l : List BoxedElement) (related : Rect → Rect → Bool)
    (counted : Finset ℕ) (i : ℕ) :
    ∀ gg ∈ group_loop l related counted i, ∃ k, ∃ hk : k < l.length,
      gg = group_instances l related (l.get ⟨k, hk⟩) {k} 0 := by
  refine group_loop.induct l related
    (fun counted i => ∀ gg ∈ group_loop l related counted i, ∃ k, ∃ hk : k < l.length,
      gg = group_instances l related (l.get ⟨k, hk⟩) {k} 0) ?_ ?_ ?_ counted i
  · intro counted i h hmem ih gg hgg
    rw [group_loop.eq_def] at hgg
    simp only [dif_pos h, if_pos hmem] at hgg
    exact ih gg hgg
  · intro counted i h hmem g ih gg hgg
    rw [group_loop.eq_def] at hgg
    simp only [dif_pos h, if_neg hmem] at hgg
    rcases List.mem_cons.mp hgg with heq | hrest
    · exact ⟨i, h, heq⟩
    · exact ih gg hrest
  · intro counted i h gg hgg
    rw [group_loop.eq_def] at hgg
    simp only [dif_neg h] at hgg
    exact absurd hgg (List.not_mem_nil gg)

theorem group_loop_cover (l : List BoxedElement) (related : Rect → Rect → Bool)
    (counted : Finset ℕ) (i : ℕ) :
    ∀ j, i ≤ j → j < l.length → j ∉ counted →
      ∃ gg ∈ group_loop l related counted i, j ∈ gg := by
  refine group_loop.induct l related
    (fun counted i => ∀ j, i ≤ j → j < l.length → j ∉ counted →
      ∃ gg ∈ group_loop l related counted i, j ∈ gg) ?_ ?_ ?_ counted i
  · intro counted i h hmem ih j hij hj hcnt
    rw [group_loop.eq_def]
    simp only [dif_pos h, if_pos hmem]
    have hne : j ≠ i := fun he => hcnt (he ▸ hmem)
    exact ih j (by omega) hj hcnt
  · intro counted i h hmem g ih j hij hj hcnt
    rw [group_loop.eq_def]
    simp only [dif_pos h, if_neg hmem]
    by_cases hjg : j ∈ group_instances l related (l.get ⟨i, h⟩) {i} 0
    · exact ⟨group_instances l related (l.get ⟨i, h⟩) {i} 0,
        List.mem_cons_self _ _, hjg⟩
    · have hii : i ∈ group_instances l related (l.get ⟨i, h⟩) {i} 0 :=
        group_instances_sub l related _ _ _ (Finset.mem_singleton_self i)
      have hne : j ≠ i := fun he => hjg (he ▸ hii)
      have hcnt2 : j ∉ counted ∪ group_instances l related (l.get ⟨i, h⟩) {i} 0 := by
        rw [Finset.mem_union]
        rintro (hc | hg2)
        · exact hcnt hc
        · exact hjg hg2
      obtain ⟨gg, hgg, hjgg⟩ := ih j (by omega) hj hcnt2
      exact ⟨gg, List.mem_cons_of_mem _ hgg, hjgg⟩
  · intro counted i h j hij hj hcnt
    exact absurd hj (by omega)

/-- C1 amended: every element appears in at least one output cluster, and
any two elements of one output cluster are linked by a chain of pairwise
`related` relationships (in either argument order) through the sequence;
but the clusters need not be disjoint and chain-connected elements can land
in different clusters when the predicate lacks the assumed vertical
locality (see the counterexample). -/
theorem claim_C1 (c : Collection) (related : Rect → Rect → Bool) :
    (∀ e ∈ c.instances, ∃ gc ∈ c.group related, e ∈ gc.instances) ∧
    (∀ gc ∈ c.group related, ∀ a ∈ gc.instances, ∀ b ∈ gc.instances,
      chainConnected related (sortInReadingOrder c.instances) a b) := by
  constructor
  · intro e he
    have heL : e ∈ sortInReadingOrder c.instances :=
      (sortInReadingOrder_perm c.instances).mem_iff.mpr he
    obtain ⟨⟨j, hj⟩, hget⟩ := List.mem_iff_get.mp heL
    obtain ⟨gg, hgg, hjgg⟩ := group_loop_cover (sortInReadingOrder c.instances) related ∅ 0
      j (Nat.zero_le j) hj (Finset.not_mem_empty j)
    refine ⟨⟨materialize (sortInReadingOrder c.instances) gg, none, [], []⟩, ?_, ?_⟩
    · exact List.mem_map.mpr ⟨gg, hgg, rfl⟩
    · exact (mem_materialize _ gg e).mpr ⟨j, hjgg, hj, hget⟩
  · intro gc hgc a ha b hb
    obtain ⟨gg, hgg, hmk⟩ := List.mem_map.mp hgc
    obtain ⟨k, hk, hshape⟩ :=
      group_loop_shape (sortInReadingOrder c.instances) related ∅ 0 gg hgg
    have hinst : gc.instances = materialize (sortInReadingOrder c.instances) gg := by
      rw [← hmk]
    rw [hinst] at ha hb
    obtain ⟨ja, hja, hjalt, hgeta⟩ := (mem_materialize _ _ a).mp ha
    obtain ⟨jb, hjb, hjblt, hgetb⟩ := (mem_materialize _ _ b).mp hb
    have hroot : ∀ j, j ∈ gg → ∀ hlt : j < (sortInReadingOrder c.instances).length,
        chainConnected related (sortInReadingOrder c.instances)
          ((sortInReadingOrder c.instances).get ⟨k, hk⟩)
          ((sortInReadingOrder c.instances).get ⟨j, hlt⟩) := by
      rw [hshape]
      exact group_instances_conn (sortInReadingOrder c.instances) related
        ((sortInReadingOrder c.instances).get ⟨k, hk⟩)
        ((sortInReadingOrder c.instances).get ⟨k, hk⟩) {k} 0
        (List.get_mem _ k hk) Relation.ReflTransGen.refl
        (by
          intro j hj hlt
          rw [Finset.mem_singleton] at hj
          subst hj
          exact Relation.ReflTransGen.refl)
    have hca : chainConnected related (sortInReadingOrder c.instances)
        ((sortInReadingOrder c.instances).get ⟨k, hk⟩) a := by
      rw [← hgeta]
      exact hroot ja hja hjalt
    have hcb : chainConnected related (sortInReadingOrder c.instances)
        ((sortInReadingOrder c.instances).get ⟨k, hk⟩) b := by
      rw [← hgetb]
      exact hroot jb hjb hjblt
    exact Relation.ReflTransGen.trans
      (chainConnected_symm related (sortInReadingOrder c.instances) _ _ hca) hcb

/-- C1 amended witness: the element of a singleton collection is covered by
some cluster. -/
theorem claim_C1_witness :
    ∃ gc ∈ exColl1.group (fun _ _ => true), exElemA ∈ gc.instances :=
  (claim_C1 exColl1 (fun _ _ => true)).1 exElemA (List.mem_singleton.mpr rfl)


def exRel (r s : Rect) : Bool :=
  (r == exRectA && s == exRectB) || (r == exRectB && s == exRectA)

def exCollG : Collection := ⟨[exElemA, exElemX, exElemB], none, [], []⟩

theorem exG_sort : sortInReadingOrder exCollG.instances = exCollG.instances := by
  rw [sortRead_eq_of_ok exCollG.instances .LEFT_RIGHT rfl]
  rw [if_neg (by decide)]
  exact List.mergeSort_of_sorted (by decide)

theorem exG_idx : exCollG.groupIndexSets exRel = [{0}, {1}, {0, 2}] := by
  unfold Collection.groupIndexSets
  rw [exG_sort]
  simp +decide [group_loop.eq_def, group_instances.eq_def]

theorem exG_group : exCollG.group exRel =
    [⟨[exElemA], none, [], []⟩, ⟨[exElemX], none, [], []⟩,
      ⟨[exElemA, exElemB], none, [], []⟩] := by
  unfold Collection.group
  rw [exG_idx, exG_sort]
  decide

/-- C1 counterexample: three vertically separated elements where only the
top and bottom ones are related.  The pruning `break` stops the scan for the
top element before it can reach the bottom one, so the bottom seed re-absorbs
the already-clustered top element: element `A` appears in two of the three
clusters, so the output is not a partition, and the chain-connected pair
`A, B` is split across clusters (`A` is also in a cluster without `B`). -/
theorem claim_C1_counterexample :
    ((exCollG.group exRel).countP (fun gc => decide (exElemA ∈ gc.instances))) = 2 ∧
    (exCollG.group exRel).length = 3 := by
  rw [exG_group]
  exact ⟨by decide, rfl⟩

theorem group_instances_false (l : List BoxedElement) (related : Rect → Rect → Bool)
    (hrel : ∀ r s, related r s = false) (e : BoxedElement) (g : Finset ℕ) (i : ℕ) :
    group_instances l related e g i = g := by
  refine group_instances.induct l related
    (fun e g i => group_instances l related e g i = g) ?_ ?_ ?_ ?_ ?_ e g i
  · intro e g i h hmem ih
    rw [group_instances.eq_def]
    simp only [dif_pos h, if_pos hmem]
    exact ih
  · intro e g i h hmem target hrel2 g1 ih1 ih2 ihc
    exact absurd hrel2 (by rw [hrel]; simp)
  · intro e g i h hmem target hrel2 hbrk
    rw [group_instances.eq_def]
    simp only [dif_pos h, if_neg hmem, hrel, if_pos hbrk]
    simp [hrel]
  · intro e g i h hmem target hrel2 hbrk ih
    rw [group_instances.eq_def]
    simp only [dif_pos h, if_neg hmem]
    rw [hrel]
    simp only [Bool.false_eq_true, if_false, if_neg hbrk]
    exact ih
  · intro e g i h
    rw [group_instances.eq_def]
    simp only [dif_neg h]

theorem group_loop_false (l : List BoxedElement) (related : Rect → Rect → Bool)
    (hrel : ∀ r s, related r s = false) (counted : Finset ℕ) (i : ℕ)
    (hinv : ∀ j ∈ counted, j < i) :
    group_loop l related counted i
      = ((List.range l.length).drop i).map (fun j => ({j} : Finset ℕ)) := by
  refine group_loop.induct l related
    (fun counted i => (∀ j ∈ counted, j < i) →
      group_loop l related counted i
        = ((List.range l.length).drop i).map (fun j => ({j} : Finset ℕ)))
    ?_ ?_ ?_ counted i hinv
  · intro counted i h hmem ih hinv2
    exact absurd (hinv2 i hmem) (by omega)
  · intro counted i h hmem g ih hinv2
    rw [group_loop.eq_def]
    simp only [dif_pos h, if_neg hmem]
    have hg : group_instances l related (l.get ⟨i, h⟩) {i} 0 = {i} :=
      group_instances_false l related hrel _ _ _
    have hdrop : (List.range l.length).drop i
        = i :: (List.range l.length).drop (i + 1) := by
      rw [List.drop_eq_getElem_cons (by simpa using h)]
      congr 1
      simp
    rw [hdrop]
    simp only [List.map_cons]
    rw [hg]
    congr 1
    rw [← hg]
    apply ih
    intro j hj
    rcases Finset.mem_union.mp hj with hc | hs
    · exact Nat.lt_succ_of_lt (hinv2 j hc)
    · have hs2 : j ∈ ({i} : Finset ℕ) := by
        rw [← hg]
        exact hs
      rw [Finset.mem_singleton] at hs2
      omega
  · intro counted i h hinv2
    rw [group_loop.eq_def]
    simp only [dif_neg h]
    rw [List.drop_eq_nil_of_le (by simpa using Nat.le_of_not_lt h)]
    rfl

theorem group_loop_seeds (l : List BoxedElement) (related : Rect → Rect → Bool)
    (counted : Finset ℕ) (i : ℕ) (hinv : ∀ j, j < i → j ∈ counted) :
    ∀ k gk, (group_loop l related counted i).get? k = some gk →
      ∃ s, s ∈ gk ∧ s ∉ counted ∧
        (∀ gm ∈ (group_loop l related counted i).take k, s ∉ gm) ∧
        (∀ j, j < s → (j ∈ counted ∨ ∃ gm ∈ (group_loop l related counted i).take k, j ∈ gm)) := by
  refine group_loop.induct l related
    (fun counted i => (∀ j, j < i → j ∈ counted) →
      ∀ k gk, (group_loop l related counted i).get? k = some gk →
        ∃ s, s ∈ gk ∧ s ∉ counted ∧
          (∀ gm ∈ (group_loop l related counted i).take k, s ∉ gm) ∧
          (∀ j, j < s → (j ∈ counted ∨ ∃ gm ∈ (group_loop l related counted i).take k, j ∈ gm)))
    ?_ ?_ ?_ counted i hinv
  · intro counted i h hmem ih hinv2 k gk hget
    rw [group_loop.eq_def] at hget ⊢
    simp only [dif_pos h, if_pos hmem] at hget ⊢
    have hinv3 : ∀ j, j < i + 1 → j ∈ counted := by
      intro j hj
      rcases Nat.lt_succ_iff_lt_or_eq.mp hj with hlt | heq
      · exact hinv2 j hlt
      · exact heq ▸ hmem
    exact ih hinv3 k gk hget
  · intro counted i h hmem g ih hinv2 k gk hget
    rw [group_loop.eq_def] at hget ⊢
    simp only [dif_pos h, if_neg hmem] at hget ⊢
    have hig : i ∈ group_instances l related (l.get ⟨i, h⟩) {i} 0 :=
      group_instances_sub l related _ _ _ (Finset.mem_singleton_self i)
    cases k with
    | zero =>
        rw [List.get?_cons_zero] at hget
        injection hget with hgk
        subst hgk
        refine ⟨i, hig, hmem, ?_, ?_⟩
        · intro gm hgm
          exact absurd hgm (by simp)
        · intro j hj
          exact Or.inl (hinv2 j hj)
    | succ k2 =>
        rw [List.get?_cons_succ] at hget
        have hinv3 : ∀ j, j < i + 1 → j ∈ counted ∪ group_instances l related (l.get ⟨i, h⟩) {i} 0 := by
          intro j hj
          rcases Nat.lt_succ_iff_lt_or_eq.mp hj with hlt | heq
          · exact Finset.mem_union_left _ (hinv2 j hlt)
          · exact Finset.mem_union_right _ (heq ▸ hig)
        obtain ⟨s, hsgk, hscnt, hsearlier, hsall⟩ := ih hinv3 k2 gk hget
        refine ⟨s, hsgk, ?_, ?_, ?_⟩
        · intro hc
          exact hscnt (Finset.mem_union_left _ hc)
        · intro gm hgm
          rw [List.take_succ_cons] at hgm
          rcases List.mem_cons.mp hgm with heq | hrest
          · subst heq
            intro hs
            exact hscnt (Finset.mem_union_right _ hs)
          · exact hsearlier gm hrest
        · intro j hj
          rcases hsall j hj with hcu | ⟨gm, hgm, hjgm⟩
          · rcases Finset.mem_union.mp hcu with hc | hg0
            · exact Or.inl hc
            · refine Or.inr ⟨group_instances l related (l.get ⟨i, h⟩) {i} 0, ?_, hg0⟩
              rw [List.take_succ_cons]
              exact List.mem_cons_self _ _
          · refine Or.inr ⟨gm, ?_, hjgm⟩
            rw [List.take_succ_cons]
            exact List.mem_cons_of_mem _ hgm
  · intro counted i h hinv2 k gk hget
    rw [group_loop.eq_def] at hget
    simp only [dif_neg h] at hget
    exact absurd hget (by simp)

theorem range_filter_eq (n j : ℕ) (hj : j < n) :
    (List.range n).filter (fun x => decide (x = j)) = [j] := by
  induction n with
  | zero => omega
  | succ m ih =>
      rw [List.range_succ, List.filter_append]
      by_cases hjm : j < m
      · rw [ih hjm]
        have hlast : List.filter (fun x => decide (x = j)) [m] = [] := by
          simp only [List.filter_cons, List.filter_nil]
          rw [if_neg (by simp; omega)]
        rw [hlast]
        simp
      · have hjm2 : j = m := by omega
        have h0 : (List.range m).filter (fun x => decide (x = j)) = [] := by
          rw [List.filter_eq_nil_iff]
          intro a ha
          rw [List.mem_range] at ha
          simp
          omega
        rw [h0, hjm2]
        simp

theorem materialize_singleton (l : List BoxedElement) (j : ℕ) (hj : j < l.length) :
    materialize l {j} = [l.get ⟨j, hj⟩] := by
  unfold materialize
  have hpred : (fun x => decide (x ∈ ({j} : Finset ℕ))) = (fun x => decide (x = j)) := by
    funext x
    simp
  rw [show ((List.range l.length).filter (fun x => x ∈ ({j} : Finset ℕ)))
      = ((List.range l.length).filter (fun x => decide (x = j))) from by rw [← hpred]]
  rw [range_filter_eq l.length j hj]
  simp only [List.filterMap_cons, List.filterMap_nil]
  rw [List.getElem?_eq_getElem hj]
  simp

theorem sortInReadingOrder_nil : sortInReadingOrder [] = [] := by
  rw [sortRead_eq_of_ok [] .LEFT_RIGHT rfl]
  simp

/-- C7 amended: grouping an empty collection yields no clusters; a
predicate that never holds yields exactly one singleton cluster per
element, in reading order; every cluster holds exactly the elements at its
member indices (materialized in CPython set-iteration order of those
indices, which need not be the reading order — see the counterexample);
and the clusters are emitted in the order of their seeds: the k-th index
cluster contains an index that occurs in no earlier cluster while every
smaller index already occurs in an earlier cluster. -/
theorem claim_C7 (c : Collection) (related : Rect → Rect → Bool) :
    (c.instances = [] → c.group related = []) ∧
    (c.group (fun _ _ => false)
      = (sortInReadingOrder c.instances).map (fun e => ⟨[e], none, [], []⟩)) ∧
    (∀ gc ∈ c.group related, ∃ gg ∈ c.groupIndexSets related, ∀ a,
      a ∈ gc.instances ↔ ∃ j, j ∈ gg ∧ ∃ hj : j < (sortInReadingOrder c.instances).length,
        (sortInReadingOrder c.instances).get ⟨j, hj⟩ = a) ∧
    (∀ k gk, (c.groupIndexSets related).get? k = some gk →
      ∃ s, s ∈ gk ∧ (∀ gm ∈ (c.groupIndexSets related).take k, s ∉ gm) ∧
        (∀ j, j < s → ∃ gm ∈ (c.groupIndexSets related).take k, j ∈ gm)) := by
  refine ⟨?_, ?_, ?_, ?_⟩
  · intro hnil
    unfold Collection.group Collection.groupIndexSets
    rw [hnil, sortInReadingOrder_nil]
    rw [group_loop.eq_def]
    simp
  · unfold Collection.group Collection.groupIndexSets
    rw [group_loop_false _ _ (fun r s => rfl) ∅ 0 (by intro j hj; exact absurd hj (by simp))]
    rw [List.drop_zero, List.map_map]
    apply List.ext_getElem
    · simp
    · intro k h1 h2
      simp only [List.getElem_map, List.getElem_range, Function.comp_apply]
      have hk : k < (sortInReadingOrder c.instances).length := by simpa using h1
      rw [materialize_singleton (sortInReadingOrder c.instances) k hk]
      simp
  · intro gc hgc
    obtain ⟨gg, hgg, hmk⟩ := List.mem_map.mp hgc
    have hinst : gc.instances = materialize (sortInReadingOrder c.instances) gg := by
      rw [← hmk]
    refine ⟨gg, hgg, ?_⟩
    intro a
    rw [hinst]
    exact mem_materialize (sortInReadingOrder c.instances) gg a
  · intro k gk hget
    obtain ⟨s, hs1, _, hs3, hs4⟩ := group_loop_seeds (sortInReadingOrder c.instances) related
      ∅ 0 (by intro j hj; omega) k gk hget
    refine ⟨s, hs1, hs3, ?_⟩
    intro j hj
    rcases hs4 j hj with hmem | hex
    · exact absurd hmem (Finset.not_mem_empty j)
    · exact hex

def exColl0 : Collection := ⟨[], none, [], []⟩

/-- C7 witness: the empty collection produces no clusters, and with a
never-true predicate the singleton-per-element law holds at a concrete
collection. -/
theorem claim_C7_witness :
    exColl0.group exRel = [] ∧
    exColl0.group (fun _ _ => false)
      = (sortInReadingOrder exColl0.instances).map (fun e => ⟨[e], none, [], []⟩) :=
  ⟨(claim_C7 exColl0 exRel).1 rfl, (claim_C7 exColl0 exRel).2.1⟩

theorem group_instancesSeq_grows (l : List BoxedElement) (related : Rect → Rect → Bool)
    (e : BoxedElement) (g : List ℕ) (i : ℕ) :
    ∃ t, group_instancesSeq l related e g i = g ++ t := by
  refine group_instancesSeq.induct l related
    (fun e g i => ∃ t, group_instancesSeq l related e g i = g ++ t) ?_ ?_ ?_ ?_ ?_ e g i
  · intro e g i h hmem ih
    rw [group_instancesSeq.eq_def]
    simp only [dif_pos h, if_pos hmem]
    exact ih
  · intro e g i h hmem target hrel g1 ih1 ih2 ihc
    rw [group_instancesSeq.eq_def]
    simp only [dif_pos h, if_neg hmem, hrel, if_pos]
    obtain ⟨t, ht⟩ := ihc
    exact ⟨[i] ++ (group_instancesSeq l related (l.get ⟨i, h⟩) (g ++ [i]) 0).drop (g.length + 1) ++ t,
      by rw [ht]; simp; rfl⟩
  · intro e g i h hmem target hrel hbrk
    rw [group_instancesSeq.eq_def]
    simp only [dif_pos h, if_neg hmem, hrel, if_pos hbrk]
    exact ⟨[], by simp⟩
  · intro e g i h hmem target hrel hbrk ih
    rw [group_instancesSeq.eq_def]
    simp only [dif_pos h, if_neg hmem, hrel, if_neg hbrk]
    exact ih
  · intro e g i h
    rw [group_instancesSeq.eq_def]
    simp only [dif_neg h]
    exact ⟨[], by simp⟩

theorem toFinset_append_singleton (g : List ℕ) (i : ℕ) :
    (g ++ [i]).toFinset = insert i g.toFinset := by
  rw [List.toFinset_append]
  simp [Finset.union_comm, Finset.insert_eq]

theorem seq_fin_agree (l : List BoxedElement) (related : Rect → Rect → Bool)
    (e : BoxedElement) (gs : List ℕ) (i : ℕ) :
    (group_instancesSeq l related e gs i).toFinset
      = group_instances l related e gs.toFinset i := by
  refine group_instancesSeq.induct l related
    (fun e gs i => (group_instancesSeq l related e gs i).toFinset
      = group_instances l related e gs.toFinset i) ?_ ?_ ?_ ?_ ?_ e gs i
  · intro e gs i h hmem ih
    rw [group_instancesSeq.eq_def, group_instances.eq_def]
    simp only [dif_pos h, if_pos hmem, if_pos (List.mem_toFinset.mpr hmem)]
    exact ih
  · intro e gs i h hmem target hrel g1 ih1 ih2 ihc
    obtain ⟨t, ht⟩ := group_instancesSeq_grows l related (l.get ⟨i, h⟩) (gs ++ [i]) 0
    have hA : (gs ++ [i]) ++ (group_instancesSeq l related (l.get ⟨i, h⟩) (gs ++ [i]) 0).drop (gs.length + 1)
        = group_instancesSeq l related (l.get ⟨i, h⟩) (gs ++ [i]) 0 := by
      rw [ht]
      have hlen : gs.length + 1 = (gs ++ [i]).length := by simp
      rw [hlen, List.drop_left]
    have hmem2 : i ∉ gs.toFinset := fun hc => hmem (List.mem_toFinset.mp hc)
    have hsub : insert i gs.toFinset
        ⊆ group_instances l related (l.get ⟨i, h⟩) (insert i gs.toFinset) 0 :=
      group_instances_sub l related _ _ _
    have hunion : group_instances l related (l.get ⟨i, h⟩) (insert i gs.toFinset) 0
          ∪ insert i gs.toFinset
        = group_instances l related (l.get ⟨i, h⟩) (insert i gs.toFinset) 0 :=
      Finset.union_eq_left.mpr hsub
    rw [group_instancesSeq.eq_def, group_instances.eq_def]
    simp only [dif_pos h, if_neg hmem, if_neg hmem2, hrel, if_pos]
    rw [ihc]
    have hset : ((gs ++ [i]) ++ (group_instancesSeq l related (l.get ⟨i, h⟩) (gs ++ [i]) 0).drop (gs.length + 1)).toFinset
        = group_instances l related (l.get ⟨i, h⟩) (insert i gs.toFinset) 0
          ∪ insert i gs.toFinset := by
      rw [hA]
      rw [ih2]
      rw [toFinset_append_singleton]
      rw [hunion]
    rw [hset]
  · intro e gs i h hmem target hrel hbrk
    have hmem2 : i ∉ gs.toFinset := fun hc => hmem (List.mem_toFinset.mp hc)
    rw [group_instancesSeq.eq_def, group_instances.eq_def]
    simp only [dif_pos h, if_neg hmem, if_neg hmem2, hrel, if_pos hbrk]
    simp
  · intro e gs i h hmem target hrel hbrk ih
    have hmem2 : i ∉ gs.toFinset := fun hc => hmem (List.mem_toFinset.mp hc)
    rw [group_instancesSeq.eq_def, group_instances.eq_def]
    simp only [dif_pos h, if_neg hmem, if_neg hmem2, hrel, if_neg hbrk]
    exact ih
  · intro e gs i h
    rw [group_instancesSeq.eq_def, group_instances.eq_def]
    simp only [dif_neg h]

theorem loopSeq_agree (l : List BoxedElement) (related : Rect → Rect → Bool)
    (counted : Finset ℕ) (i : ℕ) :
    (group_loopSeq l related counted i).map List.toFinset
      = group_loop l related counted i := by
  refine group_loopSeq.induct l related
    (fun counted i => (group_loopSeq l related counted i).map List.toFinset
      = group_loop l related counted i) ?_ ?_ ?_ counted i
  · intro counted i h hmem ih
    rw [group_loopSeq.eq_def, group_loop.eq_def]
    simp only [dif_pos h, if_pos hmem]
    exact ih
  · intro counted i h hmem g ih
    rw [group_loopSeq.eq_def, group_loop.eq_def]
    simp only [dif_pos h, if_neg hmem]
    rw [List.map_cons]
    have hg : (group_instancesSeq l related (l.get ⟨i, h⟩) [i] 0).toFinset
        = group_instances l related (l.get ⟨i, h⟩) {i} 0 := by
      rw [seq_fin_agree]
      simp
    rw [hg]
    congr 1
    rw [← hg]
    exact ih
  · intro counted i h
    rw [group_loopSeq.eq_def, group_loop.eq_def]
    simp only [dif_neg h]
    rfl

/-- The order-faithful twin computes the same index clusters as
`Collection.groupIndexSets`. -/
theorem groupSeq_indexSets_agree (c : Collection) (related : Rect → Rect → Bool) :
    (group_loopSeq (sortInReadingOrder c.instances) related ∅ 0).map List.toFinset
      = c.groupIndexSets related :=
  loopSeq_agree (sortInReadingOrder c.instances) related ∅ 0


def rowElem (k : Int) : BoxedElement := ⟨⟨k, 0, k + 1, 10⟩, none, true⟩

def exCollRow : Collection :=
  ⟨[rowElem 0, rowElem 1, rowElem 2, rowElem 3, rowElem 4,
    rowElem 5, rowElem 6, rowElem 7, rowElem 8], none, [], []⟩

def exRelRow (r s : Rect) : Bool :=
  (r == (rowElem 1).bbox && s == (rowElem 8).bbox)
    || (r == (rowElem 8).bbox && s == (rowElem 1).bbox)

theorem exRow_sort : sortInReadingOrder exCollRow.instances = exCollRow.instances := by
  rw [sortRead_eq_of_ok exCollRow.instances .LEFT_RIGHT rfl]
  rw [if_neg (by decide)]
  exact List.mergeSort_of_sorted (by decide)

theorem exRow_seq : group_loopSeq exCollRow.instances exRelRow ∅ 0
    = [[0], [1, 8], [2], [3], [4], [5], [6], [7]] := by
  simp +decide [group_loopSeq.eq_def, group_instancesSeq.eq_def]

theorem exRow_pyOrder : pySetOrder [1, 8] = [8, 1] := by decide

/-- C7 counterexample: nine elements in one text row (equal vertical
extent, ascending x, already in reading order) with the predicate relating
exactly the elements at indices 1 and 8.  The scan seeded at index 1
absorbs index 8, so the cluster set is built by inserting 1 then 8 — and
CPython iterates that set as `[8, 1]`, since 8 hashes to slot 0 of the
eight-slot table.  The second cluster is therefore materialized as
`[e8, e1]`, which does not preserve the original-group (reading) order,
refuting the claim that cluster members are materialized in their
original-group order. -/
theorem claim_C7_counterexample :
    ((exCollRow.groupPy exRelRow).map Collection.instances)[1]?
        = some [rowElem 8, rowElem 1] ∧
    sortInReadingOrder exCollRow.instances = exCollRow.instances ∧
    ¬ [rowElem 8, rowElem 1].Sublist exCollRow.instances := by
  refine ⟨?_, exRow_sort, by decide⟩
  unfold Collection.groupPy
  rw [exRow_sort, exRow_seq]
  decide
